import Mathlib

/-!
Shallow embedding of `src/Main.cpp` (namespace `test`): a catalog of twenty
places, three greedy route-selection algorithms, and route rendering.

Modelling conventions:
* C++ `float` is modelled by `ℚ`.  Every duration in the catalog is a
  multiple of one half and all sums stay far below `2^24`, so every float
  computation the program performs is exact and agrees with `ℚ`.
* The C++ functions read the global constant catalog and compute the budget
  `VISIT_TIME - SLEEP_TIME` locally; the Lean versions take the catalog and
  the budget as parameters so that properties quantified over catalogs and
  budgets can be stated.  `availableTime` is the reference budget.
* `std::sort` with a strict comparator `cmp` guarantees exactly that the
  result is a permutation of the input that is sorted with respect to the
  complement relation `fun a b => ¬ cmp b a`; the order of equivalent
  elements is unspecified.  The deterministic model below resolves this
  freedom with the stable `List.insertionSort` of the non-strict relation,
  which reproduces the reference outputs documented in the source header
  comment.  For the stability question itself a relational model
  (`VisitByValueAllowed`) admitting every conforming `std::sort` result is
  used.
-/

namespace test

/-- `constexpr float VISIT_TIME = 48.0f` (`Main.cpp:49`). -/
def VISIT_TIME : ℚ := 48

/-- `constexpr float SLEEP_TIME = 16.0f` (`Main.cpp:50`). -/
def SLEEP_TIME : ℚ := 16

/-- The budget `float time = VISIT_TIME - SLEEP_TIME` computed by each
algorithm (`Main.cpp:122`, `149`, `171`). -/
def availableTime : ℚ := VISIT_TIME - SLEEP_TIME

/-- `struct Place` (`Main.cpp:52`): a name, a duration in hours and an
importance score. -/
structure Place where
  name : String
  time : ℚ
  value : ℤ
deriving DecidableEq

/-- The constant catalog `const std::vector<Place> places` (`Main.cpp:59`). -/
def places : List Place :=
  [ ⟨"Isaakievskij sobor", 5, 10⟩,
    ⟨"Ermitazh", 8, 11⟩,
    ⟨"Kunstkamera", 3.5, 4⟩,
    ⟨"Petropavlovskaya krepost", 10, 7⟩,
    ⟨"Leningradskij zoopark", 9, 15⟩,
    ⟨"Mednyj vsadnik", 1, 17⟩,
    ⟨"Kazanskij sobor", 4, 3⟩,
    ⟨"Spas na Krovi", 2, 9⟩,
    ⟨"Zimnij dvorec Petra I", 7, 12⟩,
    ⟨"Zoologicheskij muzej", 5.5, 6⟩,
    ⟨"Muzej oborony i blokady Leningrada", 2, 19⟩,
    ⟨"Russkij muzej", 5, 8⟩,
    ⟨"Navestit druzej", 12, 20⟩,
    ⟨"Muzej voskovyh figur", 2, 13⟩,
    ⟨"Literaturno-memorialnyj muzej F.M. Dostoevskogo", 4, 2⟩,
    ⟨"Ekaterininskij dvorec", 1.5, 5⟩,
    ⟨"Peterburgskij muzej kukol", 1, 14⟩,
    ⟨"Muzej mikrominiatyury \"Russkij Levsha\"", 3, 18⟩,
    ⟨"Vserossijskij muzej A.S.Pushkina i filialy", 6, 1⟩,
    ⟨"Muzej sovremennogo iskusstva Erarta", 7, 16⟩ ]

/-- `struct Route` (`Main.cpp:83`): an ordered sequence of selected places. -/
structure Route where
  places : List Place
deriving DecidableEq

/-- Sum of durations of a list of places (`std::accumulate` over `time`,
`Main.cpp:91`, here as the mathematical sum used by the lemmas). -/
def timeSum (l : List Place) : ℚ := (l.map Place.time).sum

/-- Total time of a route: `std::accumulate(r.places.begin(), r.places.end(),
0.0f, ...)` (`Main.cpp:91`). -/
def totalTime (r : Route) : ℚ := r.places.foldl (fun t p => t + p.time) 0

/-- Total value of a route: `std::accumulate(..., 0, ...)` over `value`
(`Main.cpp:92`). -/
def totalValue (r : Route) : ℤ := r.places.foldl (fun v p => v + p.value) 0

/-- Number of places of a route: `r.places.size()` (`Main.cpp:93`). -/
def count (r : Route) : ℕ := r.places.length

/-- Non-strict counterpart of the comparator `CompTimeLess`
(`Main.cpp:101`): `std::sort` with the strict `p1.time < p2.time`
produces exactly the permutations sorted with respect to this relation. -/
def timeLE (a b : Place) : Prop := a.time ≤ b.time

instance : DecidableRel timeLE := fun a b => inferInstanceAs (Decidable (a.time ≤ b.time))

instance : IsTotal Place timeLE := ⟨fun a b => le_total a.time b.time⟩

instance : IsTrans Place timeLE := ⟨fun _ _ _ h1 h2 => le_trans h1 h2⟩

/-- Non-strict counterpart of the comparator `CompValueGreater`
(`Main.cpp:113`): descending importance. -/
def valueGE (a b : Place) : Prop := b.value ≤ a.value

instance : DecidableRel valueGE := fun a b => inferInstanceAs (Decidable (b.value ≤ a.value))

instance : IsTotal Place valueGE := ⟨fun a b => le_total b.value a.value⟩

instance : IsTrans Place valueGE := ⟨fun _ _ _ h1 h2 => le_trans h2 h1⟩

/-- The greedy accumulation loop shared by `VisitMostPlaces` and
`VisitByValue` (`Main.cpp:134-140`, `156-162`): add the duration to the
accumulator, append the place while the accumulator stays within the
budget, and break at the first overflow. -/
def selectLoop (time : ℚ) (accTime : ℚ) : List Place → List Place
  | [] => []
  | p :: rest =>
    if accTime + p.time ≤ time then p :: selectLoop time (accTime + p.time) rest
    else []

/-- First algorithm `VisitMostPlaces` (`Main.cpp:119`): sort a working copy
of the catalog by ascending duration, then greedily fill the route. -/
def VisitMostPlaces (catalog : List Place) (time : ℚ) : Route :=
  ⟨selectLoop time 0 (List.insertionSort timeLE catalog)⟩

/-- Second algorithm `VisitByValue` (`Main.cpp:146`): sort a working copy of
the catalog by descending importance, then greedily fill the route. -/
def VisitByValue (catalog : List Place) (time : ℚ) : Route :=
  ⟨selectLoop time 0 (List.insertionSort valueGE catalog)⟩

/-- The importance-per-hour key `pl.value / pl.time` computed by the
`PlaceHV` constructor (`Main.cpp:182`). -/
def hourVal (p : Place) : ℚ := p.value / p.time

/-- `struct PlaceHV` (`Main.cpp:177`): a reference to a place paired with
its precomputed importance per hour. -/
structure PlaceHV where
  place : Place
  hourVal : ℚ
deriving DecidableEq

/-- The `PlaceHV` constructor (`Main.cpp:182`). -/
def mkPlaceHV (p : Place) : PlaceHV := ⟨p, hourVal p⟩

/-- Non-strict counterpart of the comparator `CompHVGreater`
(`Main.cpp:189`): descending importance per hour. -/
def hvGE (a b : PlaceHV) : Prop := b.hourVal ≤ a.hourVal

instance : DecidableRel hvGE := fun a b => inferInstanceAs (Decidable (b.hourVal ≤ a.hourVal))

instance : IsTotal PlaceHV hvGE := ⟨fun a b => le_total b.hourVal a.hourVal⟩

instance : IsTrans PlaceHV hvGE := ⟨fun _ _ _ h1 h2 => le_trans h2 h1⟩

/-- The greedy loop of the third algorithm (`Main.cpp:196-202`): accumulate
`p.place->time` and push `*p.place`. -/
def selectLoopHV (time : ℚ) (accTime : ℚ) : List PlaceHV → List Place
  | [] => []
  | p :: rest =>
    if accTime + p.place.time ≤ time then
      p.place :: selectLoopHV time (accTime + p.place.time) rest
    else []

/-- Third algorithm `VisitByHourValue` (`Main.cpp:168`): build the `PlaceHV`
records for the catalog, sort them by descending importance per hour, then
greedily fill the route from the referenced places. -/
def VisitByHourValue (catalog : List Place) (time : ℚ) : Route :=
  ⟨selectLoopHV time 0 (List.insertionSort hvGE (catalog.map mkPlaceHV))⟩

/-- The list of places in the order scanned by `VisitByHourValue`. -/
def sortedByRate (catalog : List Place) : List Place :=
  (List.insertionSort hvGE (catalog.map mkPlaceHV)).map PlaceHV.place

/-- Descending importance per hour, as a relation on places (the order the
third algorithm's route is claimed to be in). -/
def rateGE (a b : Place) : Prop := hourVal b ≤ hourVal a

/-- Rendering of a rational number as `std::format("{}", x)` renders the
corresponding `float`: integers without a decimal point, halves with a
trailing `.5`.  Every duration occurring in the program is a multiple of
one half, so these two cases cover every string the program prints; other
denominators (never reached) fall back to `toString`. -/
def fmtRat (q : ℚ) : String :=
  if q.den = 1 then toString q.num
  else if q.den = 2 then toString (q.num / 2) ++ ".5"
  else toString q

/-- The summary line of `operator<<` (`Main.cpp:90-93`). -/
def renderSummary (r : Route) : String :=
  "Total time: " ++ fmtRat (totalTime r) ++ "; Total value: " ++ toString (totalValue r) ++
    "; Places visited: " ++ toString (count r) ++ "\n"

/-- One place entry as formatted by `std::format(" - {} ({}h, {})", ...)`
(`Main.cpp:94`): note the leading space before the dash. -/
def renderEntry (p : Place) : String :=
  " - " ++ p.name ++ " (" ++ fmtRat p.time ++ "h, " ++ toString p.value ++ ")"

/-- The entry loop of `operator<<` (`Main.cpp:94-95`): after each entry the
separator `", \n"` is printed unless the entry is the last one. -/
def renderEntries : List Place → String
  | [] => ""
  | [p] => renderEntry p
  | p :: q :: rest => renderEntry p ++ ", \n" ++ renderEntries (q :: rest)

/-- The full text `operator<<` writes for a route (`Main.cpp:88-97`). -/
def render (r : Route) : String := renderSummary r ++ renderEntries r.places

/-- Joining a list of strings with a separator between consecutive
elements, the last element unterminated. -/
def joinSep (sep : String) : List String → String
  | [] => ""
  | [s] => s
  | s :: t :: rest => s ++ sep ++ joinSep sep (t :: rest)

/-- The rendering described literally by the claim: entries
`- <name> (<duration>h, <importance>)` separated by a comma and a
newline. -/
def renderClaimed (r : Route) : String :=
  renderSummary r ++
    joinSep ",\n" (r.places.map fun p =>
      "- " ++ p.name ++ " (" ++ fmtRat p.time ++ "h, " ++ toString p.value ++ ")")

/-- The rendering with the two details corrected to match the code: each
entry carries a leading space (`" - ..."`) and the separator is a comma, a
space and a newline (`", \n"`). -/
def renderAmended (r : Route) : String :=
  renderSummary r ++ joinSep ", \n" (r.places.map renderEntry)

/-- A conforming result of `std::sort(temp.begin(), temp.end(), CVG)`
(`Main.cpp:154`): `std::sort` guarantees only that the output is a
permutation of the input ordered by the comparator; the relative order of
elements the comparator deems equivalent is unspecified (`std::sort` is
not stable). -/
def StdSortValueDesc (input output : List Place) : Prop :=
  output.Perm input ∧ output.Sorted valueGE

/-- A route that `VisitByValue` is allowed to return under the C++
semantics of `std::sort`: the greedy loop applied to some conforming sort
of the catalog. -/
def VisitByValueAllowed (catalog : List Place) (time : ℚ) (r : Route) : Prop :=
  ∃ temp, StdSortValueDesc catalog temp ∧ r = ⟨selectLoop time 0 temp⟩

/-- `VisitMostPlaces` with the process state (the global catalog
`test::places`) threaded explicitly: the function sorts a local copy
(`std::vector<Place> temp = places`, `Main.cpp:123`), so the global
catalog is returned unchanged. -/
def VisitMostPlacesSt (catalog : List Place) : Route × List Place :=
  (VisitMostPlaces catalog availableTime, catalog)

/-- `VisitByValue` with the process state threaded explicitly
(`Main.cpp:150` copies the catalog). -/
def VisitByValueSt (catalog : List Place) : Route × List Place :=
  (VisitByValue catalog availableTime, catalog)

/-- `VisitByHourValue` with the process state threaded explicitly
(`Main.cpp:185-186` builds a separate vector of `PlaceHV` records). -/
def VisitByHourValueSt (catalog : List Place) : Route × List Place :=
  (VisitByHourValue catalog availableTime, catalog)

/-- Two places of equal importance, used to exhibit the unspecified
tie-break of `std::sort`. -/
def pA : Place := ⟨"A", 1, 5⟩

/-- Second place of the equal-importance pair; listed after `pA` in its
catalog. -/
def pB : Place := ⟨"B", 1, 5⟩

/-- A place of positive duration for the zero-budget boundary check. -/
def pW : Place := ⟨"W", 2, 3⟩

/-- A place of zero duration for the zero-budget boundary check. -/
def pZ : Place := ⟨"Z", 0, 1⟩

/-- The property that `r` is the longest prefix of the scan order `s` whose
running duration sums all stay within the budget `time` (the spec's
description of the greedy loop's result). -/
def greedyLongest (time : ℚ) (s r : List Place) : Prop :=
  r = s.take r.length ∧ (∀ i ≤ r.length, timeSum (s.take i) ≤ time) ∧
    ∀ k ≤ s.length, (∀ i ≤ k, timeSum (s.take i) ≤ time) → k ≤ r.length

theorem timeSum_nil : timeSum [] = 0 := rfl

theorem timeSum_cons (p : Place) (l : List Place) : timeSum (p :: l) = p.time + timeSum l := by
  simp [timeSum]

theorem foldl_add_time (l : List Place) :
    ∀ a : ℚ, l.foldl (fun t p => t + p.time) a = a + timeSum l := by
  induction l with
  | nil => intro a; simp [timeSum]
  | cons p rest ih =>
    intro a
    rw [List.foldl_cons, ih, timeSum_cons]
    ring

theorem totalTime_eq_timeSum (r : Route) : totalTime r = timeSum r.places := by
  rw [totalTime, foldl_add_time, zero_add]

theorem timeSum_nonneg (l : List Place) (h : ∀ p ∈ l, 0 ≤ p.time) : 0 ≤ timeSum l := by
  induction l with
  | nil => simp [timeSum]
  | cons p rest ih =>
    rw [timeSum_cons]
    exact add_nonneg (h p (List.mem_cons_self p rest))
      (ih fun q hq => h q (List.mem_cons_of_mem p hq))

theorem selectLoop_eq_take (time : ℚ) (l : List Place) :
    ∀ acc : ℚ, selectLoop time acc l = l.take (selectLoop time acc l).length := by
  induction l with
  | nil => intro acc; rfl
  | cons p rest ih =>
    intro acc
    by_cases h : acc + p.time ≤ time
    · simp only [selectLoop, if_pos h, List.length_cons, List.take_succ_cons]
      exact congrArg (List.cons p) (ih (acc + p.time))
    · simp [selectLoop, if_neg h]

theorem selectLoop_sublist (time acc : ℚ) (l : List Place) :
    (selectLoop time acc l).Sublist l := by
  rw [selectLoop_eq_take time l acc]
  exact List.take_sublist _ _

theorem selectLoop_total_le (time : ℚ) (l : List Place) :
    ∀ acc : ℚ, acc ≤ time → acc + timeSum (selectLoop time acc l) ≤ time := by
  induction l with
  | nil => intro acc h; simpa [selectLoop, timeSum] using h
  | cons p rest ih =>
    intro acc h
    by_cases h' : acc + p.time ≤ time
    · simp only [selectLoop, if_pos h', timeSum_cons]
      have := ih (acc + p.time) h'
      linarith
    · simpa [selectLoop, if_neg h', timeSum] using h

theorem selectLoop_total_le_of_ne_nil (time : ℚ) (l : List Place) :
    ∀ acc : ℚ, selectLoop time acc l ≠ [] →
      acc + timeSum (selectLoop time acc l) ≤ time := by
  induction l with
  | nil => intro acc h; exact absurd rfl h
  | cons p rest ih =>
    intro acc h
    by_cases h' : acc + p.time ≤ time
    · simp only [selectLoop, if_pos h', timeSum_cons]
      by_cases hrec : selectLoop time (acc + p.time) rest = []
      · rw [hrec, timeSum_nil]
        linarith
      · have := ih (acc + p.time) hrec
        linarith
    · exact absurd (by simp [selectLoop, if_neg h']) h

theorem selectLoop_take_le (time : ℚ) (l : List Place) :
    ∀ acc : ℚ, acc ≤ time →
      ∀ i ≤ (selectLoop time acc l).length, acc + timeSum (l.take i) ≤ time := by
  induction l with
  | nil =>
    intro acc h i hi
    have : i = 0 := Nat.le_zero.mp hi
    subst this
    simpa [timeSum] using h
  | cons p rest ih =>
    intro acc h i hi
    by_cases h' : acc + p.time ≤ time
    · cases i with
      | zero => simpa [timeSum] using h
      | succ j =>
        simp only [selectLoop, if_pos h', List.length_cons] at hi
        rw [List.take_succ_cons, timeSum_cons, ← add_assoc]
        exact ih (acc + p.time) h' j (Nat.succ_le_succ_iff.mp hi)
    · simp only [selectLoop, if_neg h', List.length_nil, Nat.le_zero] at hi
      subst hi
      simpa [timeSum] using h

theorem selectLoop_stop (time : ℚ) (l : List Place) :
    ∀ acc : ℚ, (selectLoop time acc l).length = l.length ∨
      time < acc + timeSum (l.take ((selectLoop time acc l).length + 1)) := by
  induction l with
  | nil => intro acc; exact Or.inl rfl
  | cons p rest ih =>
    intro acc
    by_cases h' : acc + p.time ≤ time
    · rcases ih (acc + p.time) with h | h
      · exact Or.inl (by simp [selectLoop, if_pos h', h])
      · refine Or.inr ?_
        simp only [selectLoop, if_pos h', List.length_cons, List.take_succ_cons, timeSum_cons]
        linarith
    · refine Or.inr ?_
      simp only [selectLoop, if_neg h', List.length_nil, zero_add, List.take_succ_cons,
        List.take_zero, timeSum_cons, timeSum_nil]
      have := lt_of_not_le h'
      linarith

theorem selectLoop_greedyLongest (time : ℚ) (s : List Place) (h : 0 ≤ time) :
    greedyLongest time s (selectLoop time 0 s) := by
  refine ⟨selectLoop_eq_take time s 0, ?_, ?_⟩
  · intro i hi
    have := selectLoop_take_le time s 0 h i hi
    linarith
  · intro k hk hall
    by_contra hlt
    push_neg at hlt
    rcases selectLoop_stop time s 0 with hlen | hover
    · omega
    · have := hall ((selectLoop time 0 s).length + 1) (by omega)
      linarith

theorem selectLoopHV_eq_map (time : ℚ) (l : List PlaceHV) :
    ∀ acc : ℚ, selectLoopHV time acc l = selectLoop time acc (l.map PlaceHV.place) := by
  induction l with
  | nil => intro acc; rfl
  | cons p rest ih =>
    intro acc
    by_cases h : acc + p.place.time ≤ time
    · simp only [selectLoopHV, List.map_cons, selectLoop, if_pos h, ih]
    · simp only [selectLoopHV, List.map_cons, selectLoop, if_neg h]

theorem VisitByHourValue_places (c : List Place) (t : ℚ) :
    (VisitByHourValue c t).places = selectLoop t 0 (sortedByRate c) := by
  rw [VisitByHourValue, sortedByRate, selectLoopHV_eq_map]

theorem sortedByRate_perm (c : List Place) : (sortedByRate c).Perm c := by
  have h := (List.perm_insertionSort hvGE (c.map mkPlaceHV)).map PlaceHV.place
  rw [List.map_map] at h
  have hid : (PlaceHV.place ∘ mkPlaceHV) = id := rfl
  rw [hid, List.map_id] at h
  exact h

theorem sortedByRate_sorted (c : List Place) : (sortedByRate c).Sorted rateGE := by
  have hs : (List.insertionSort hvGE (c.map mkPlaceHV)).Sorted hvGE :=
    List.sorted_insertionSort hvGE (c.map mkPlaceHV)
  have hmem : ∀ x ∈ List.insertionSort hvGE (c.map mkPlaceHV), x.hourVal = hourVal x.place := by
    intro x hx
    have hx' : x ∈ c.map mkPlaceHV :=
      (List.perm_insertionSort hvGE (c.map mkPlaceHV)).subset hx
    obtain ⟨p, -, rfl⟩ := List.mem_map.mp hx'
    rfl
  rw [sortedByRate]
  refine List.pairwise_map.mpr (hs.imp_of_mem ?_)
  intro a b ha hb hab
  have h1 := hmem a ha
  have h2 := hmem b hb
  rw [rateGE, ← h1, ← h2]
  exact hab

theorem sortedByRate_length (c : List Place) : (sortedByRate c).length = c.length :=
  (sortedByRate_perm c).length_eq

theorem timeSum_take_le_sum (k : ℕ) :
    ∀ (xs : List Place) (m : Multiset Place), xs.Sorted timeLE → m ≤ ↑xs →
      Multiset.card m = k → timeSum (xs.take k) ≤ (Multiset.map Place.time m).sum := by
  induction k with
  | zero =>
    intro xs m _ _ hc
    have hm : m = 0 := Multiset.card_eq_zero.mp hc
    subst hm
    simp [timeSum]
  | succ k ih =>
    intro xs m hs hm hc
    have hm0 : m ≠ 0 := by
      intro h0
      rw [h0] at hc
      simp at hc
    cases xs with
    | nil =>
      have : m = 0 := Multiset.le_zero.mp (by simpa using hm)
      exact absurd this hm0
    | cons x xs' =>
      have hcoe : (↑(x :: xs') : Multiset Place) = x ::ₘ (↑xs' : Multiset Place) := rfl
      by_cases hx : x ∈ m
      · have hm' : m.erase x ≤ ↑xs' := by
          have h1 := Multiset.erase_le_erase x hm
          rwa [hcoe, Multiset.erase_cons_head] at h1
        have hc' : Multiset.card (m.erase x) = k := by
          rw [Multiset.card_erase_of_mem hx, hc]
          rfl
        have hih := ih xs' (m.erase x) hs.tail hm' hc'
        have hsum : (Multiset.map Place.time m).sum
            = x.time + (Multiset.map Place.time (m.erase x)).sum := by
          conv_lhs => rw [← Multiset.cons_erase hx]
          rw [Multiset.map_cons, Multiset.sum_cons]
        rw [List.take_succ_cons, timeSum_cons, hsum]
        linarith
      · have hcount : ∀ a, m.count a ≤ Multiset.count a (↑xs' : Multiset Place) := by
          intro a
          by_cases hax : a = x
          · subst hax
            rw [Multiset.count_eq_zero_of_not_mem hx]
            exact Nat.zero_le _
          · have h1 := Multiset.count_le_of_le a hm
            rwa [hcoe, Multiset.count_cons_of_ne hax] at h1
        have hm' : m ≤ ↑xs' := Multiset.le_iff_count.mpr hcount
        obtain ⟨y, hy⟩ := Multiset.exists_mem_of_ne_zero hm0
        have hyx' : y ∈ xs' := by
          have := Multiset.mem_of_le hm' hy
          simpa using this
        have hxy : x.time ≤ y.time := List.rel_of_sorted_cons hs y hyx'
        have herase : m.erase y ≤ ↑xs' := le_trans (Multiset.erase_le y m) hm'
        have hc' : Multiset.card (m.erase y) = k := by
          rw [Multiset.card_erase_of_mem hy, hc]
          rfl
        have hih := ih xs' (m.erase y) hs.tail herase hc'
        have hsum : (Multiset.map Place.time m).sum
            = y.time + (Multiset.map Place.time (m.erase y)).sum := by
          conv_lhs => rw [← Multiset.cons_erase hy]
          rw [Multiset.map_cons, Multiset.sum_cons]
        rw [List.take_succ_cons, timeSum_cons, hsum]
        linarith

theorem le_selectLoop_length (time : ℚ) (l : List Place) :
    ∀ (acc : ℚ) (k : ℕ), (∀ p ∈ l, 0 ≤ p.time) → k ≤ l.length →
      acc + timeSum (l.take k) ≤ time → k ≤ (selectLoop time acc l).length := by
  induction l with
  | nil =>
    intro acc k _ hk _
    simp only [List.length_nil, Nat.le_zero] at hk
    subst hk
    exact Nat.zero_le _
  | cons p rest ih =>
    intro acc k hnn hk hsum
    cases k with
    | zero => exact Nat.zero_le _
    | succ j =>
      rw [List.take_succ_cons, timeSum_cons] at hsum
      have hrest : ∀ q ∈ rest, 0 ≤ q.time := fun q hq => hnn q (List.mem_cons_of_mem p hq)
      have htake : 0 ≤ timeSum (rest.take j) :=
        timeSum_nonneg _ (fun q hq => hrest q (List.take_subset j rest hq))
      have hcond : acc + p.time ≤ time := by linarith
      simp only [selectLoop, if_pos hcond, List.length_cons, Nat.succ_le_succ_iff]
      have hk' : j ≤ rest.length := by
        simp only [List.length_cons] at hk
        omega
      exact ih (acc + p.time) j hrest hk' (by linarith)

theorem selectLoop_count_le (c : List Place) (t : ℚ) (hnn : ∀ p ∈ c, 0 ≤ p.time)
    (v : List Place) (hv : v.Perm c) :
    (selectLoop t 0 v).length ≤ (selectLoop t 0 (List.insertionSort timeLE c)).length := by
  rcases eq_or_ne (selectLoop t 0 v) [] with hnil | hne
  · rw [hnil]
    exact Nat.zero_le _
  · have htot : timeSum (selectLoop t 0 v) ≤ t := by
      have := selectLoop_total_le_of_ne_nil t v 0 hne
      linarith
    have hsub : (↑(selectLoop t 0 v) : Multiset Place) ≤ ↑(List.insertionSort timeLE c) := by
      rw [Multiset.coe_le]
      exact (selectLoop_sublist t 0 v).subperm.trans
        (hv.trans (List.perm_insertionSort timeLE c).symm).subperm
    have hsorted : (List.insertionSort timeLE c).Sorted timeLE :=
      List.sorted_insertionSort timeLE c
    have hA := timeSum_take_le_sum (selectLoop t 0 v).length (List.insertionSort timeLE c)
      (↑(selectLoop t 0 v)) hsorted hsub (Multiset.coe_card _)
    have hAs : (Multiset.map Place.time (↑(selectLoop t 0 v) : Multiset Place)).sum
        = timeSum (selectLoop t 0 v) := by
      rw [Multiset.map_coe]
      rfl
    rw [hAs] at hA
    have hnns : ∀ p ∈ List.insertionSort timeLE c, 0 ≤ p.time := fun p hp =>
      hnn p ((List.perm_insertionSort timeLE c).subset hp)
    have hlen : (selectLoop t 0 v).length ≤ (List.insertionSort timeLE c).length := by
      rw [List.length_insertionSort, ← hv.length_eq]
      exact (selectLoop_sublist t 0 v).length_le
    exact le_selectLoop_length t (List.insertionSort timeLE c) 0 (selectLoop t 0 v).length
      hnns hlen (by rw [zero_add]; linarith)

theorem selectLoop_zero_nil (l : List Place) (hpos : ∀ p ∈ l, 0 < p.time) :
    ∀ acc : ℚ, 0 ≤ acc → selectLoop 0 acc l = [] := by
  cases l with
  | nil => intro acc _; rfl
  | cons p rest =>
    intro acc hacc
    have hp := hpos p (List.mem_cons_self p rest)
    have hcond : ¬ (acc + p.time ≤ 0) := by linarith
    simp [selectLoop, if_neg hcond]

theorem selectLoop_zero_mem (l : List Place) :
    ∀ acc : ℚ, (∀ p ∈ l, 0 ≤ p.time) → 0 ≤ acc →
      ∀ q ∈ selectLoop 0 acc l, q.time = 0 := by
  induction l with
  | nil =>
    intro acc _ _ q hq
    exact absurd hq (List.not_mem_nil q)
  | cons p rest ih =>
    intro acc hnn hacc q hq
    by_cases hcond : acc + p.time ≤ 0
    · have hp := hnn p (List.mem_cons_self p rest)
      simp only [selectLoop, if_pos hcond, List.mem_cons] at hq
      rcases hq with rfl | hq
      · linarith
      · exact ih (acc + p.time) (fun r hr => hnn r (List.mem_cons_of_mem p hr))
          (by linarith) q hq
    · simp only [selectLoop, if_neg hcond] at hq
      exact absurd hq (List.not_mem_nil q)

theorem renderEntries_eq_joinSep (l : List Place) :
    renderEntries l = joinSep ", \n" (l.map renderEntry) := by
  induction l with
  | nil => rfl
  | cons p rest ih =>
    cases rest with
    | nil => rfl
    | cons q rest' =>
      simp only [renderEntries, List.map_cons, joinSep]
      simp only [List.map_cons] at ih
      rw [ih]

/-- Claim C1: for each of the three selection algorithms the total duration
of the returned route stays within the (nonnegative) time budget
`availableTime = visitWindow - restTime`, `32` in the reference
configuration, for every catalog; the greedy loop enforces this by
construction. -/
theorem C1_budget_invariant (c : List Place) (t : ℚ) (h : 0 ≤ t) :
    totalTime (VisitMostPlaces c t) ≤ t ∧ totalTime (VisitByValue c t) ≤ t ∧
      totalTime (VisitByHourValue c t) ≤ t := by
  refine ⟨?_, ?_, ?_⟩
  · have h1 := selectLoop_total_le t (List.insertionSort timeLE c) 0 h
    rw [zero_add] at h1
    rw [totalTime_eq_timeSum]
    exact h1
  · have h1 := selectLoop_total_le t (List.insertionSort valueGE c) 0 h
    rw [zero_add] at h1
    rw [totalTime_eq_timeSum]
    exact h1
  · have h1 := selectLoop_total_le t (sortedByRate c) 0 h
    rw [zero_add] at h1
    rw [totalTime_eq_timeSum, VisitByHourValue_places]
    exact h1

/-- Witness for C1 at the reference catalog and budget. -/
theorem C1_budget_invariant_witness :
    (0 : ℚ) ≤ availableTime ∧
      (totalTime (VisitMostPlaces places availableTime) ≤ availableTime ∧
        totalTime (VisitByValue places availableTime) ≤ availableTime ∧
        totalTime (VisitByHourValue places availableTime) ≤ availableTime) :=
  ⟨by norm_num [availableTime, VISIT_TIME, SLEEP_TIME],
    C1_budget_invariant places availableTime
      (by norm_num [availableTime, VISIT_TIME, SLEEP_TIME])⟩

/-- Claim C2: each algorithm scans its sorted working copy in order,
accumulating durations, appending while the accumulator stays within the
budget and stopping the scan entirely at the first overflow; hence the
returned route is exactly the longest prefix of the sorted order whose
cumulative durations stay within the budget, and items after the first
overflow are never included. -/
theorem C2_greedy_scan (c : List Place) (t : ℚ) (h : 0 ≤ t) :
    greedyLongest t (List.insertionSort timeLE c) (VisitMostPlaces c t).places ∧
      greedyLongest t (List.insertionSort valueGE c) (VisitByValue c t).places ∧
      greedyLongest t (sortedByRate c) (VisitByHourValue c t).places := by
  refine ⟨selectLoop_greedyLongest t _ h, selectLoop_greedyLongest t _ h, ?_⟩
  rw [VisitByHourValue_places]
  exact selectLoop_greedyLongest t _ h

/-- Witness for C2 at the reference catalog and budget. -/
theorem C2_greedy_scan_witness :
    (0 : ℚ) ≤ availableTime ∧
      (greedyLongest availableTime (List.insertionSort timeLE places)
          (VisitMostPlaces places availableTime).places ∧
        greedyLongest availableTime (List.insertionSort valueGE places)
          (VisitByValue places availableTime).places ∧
        greedyLongest availableTime (sortedByRate places)
          (VisitByHourValue places availableTime).places) :=
  ⟨by norm_num [availableTime, VISIT_TIME, SLEEP_TIME],
    C2_greedy_scan places availableTime
      (by norm_num [availableTime, VISIT_TIME, SLEEP_TIME])⟩

/-- Claim C3: on the reference catalog of twenty places with
`visitWindow = 48` and `restTime = 16` (budget `32`), `VisitMostPlaces`
returns total duration `29`, total importance `114` and `11` places;
`VisitByValue` returns `25`, `90` and `5`; `VisitByHourValue` returns
`31.5`, `133` and `10` — the figures documented in the source header. -/
theorem C3_reference_outputs :
    (totalTime (VisitMostPlaces places availableTime) = 29 ∧
      totalValue (VisitMostPlaces places availableTime) = 114 ∧
      count (VisitMostPlaces places availableTime) = 11) ∧
    (totalTime (VisitByValue places availableTime) = 25 ∧
      totalValue (VisitByValue places availableTime) = 90 ∧
      count (VisitByValue places availableTime) = 5) ∧
    (totalTime (VisitByHourValue places availableTime) = 31.5 ∧
      totalValue (VisitByHourValue places availableTime) = 133 ∧
      count (VisitByHourValue places availableTime) = 10) := by
  refine ⟨?_, ?_, ?_⟩
  · norm_num [VisitMostPlaces, places, availableTime, VISIT_TIME, SLEEP_TIME, totalTime,
      totalValue, count, List.insertionSort, List.orderedInsert, timeLE, selectLoop]
  · norm_num [VisitByValue, places, availableTime, VISIT_TIME, SLEEP_TIME, totalTime,
      totalValue, count, List.insertionSort, List.orderedInsert, valueGE, selectLoop]
  · norm_num [VisitByHourValue, places, availableTime, VISIT_TIME, SLEEP_TIME, totalTime,
      totalValue, count, List.insertionSort, List.orderedInsert, hvGE, mkPlaceHV, hourVal,
      selectLoopHV]

/-- Claim C4 counterexample: `VisitByValue` sorts with `std::sort`
(`Main.cpp:154`), which does not guarantee stability, so the claim that
equal-importance places always appear in catalog order fails: on the
catalog `[pA, pB]` with equal importance, the conforming sorted
permutation `[pB, pA]` yields a route listing `pB` before `pA`. -/
theorem C4_stability_counterexample :
    VisitByValueAllowed [pA, pB] 32 ⟨[pB, pA]⟩ ∧ pA.value = pB.value ∧ pA ≠ pB := by
  refine ⟨⟨[pB, pA], ⟨List.Perm.swap pA pB [], ?_⟩, ?_⟩, rfl, ?_⟩
  · norm_num [List.sorted_cons, valueGE, pA, pB]
  · norm_num [selectLoop, pA, pB]
  · simp [pA, pB]

/-- Claim C4, amended: `VisitByValue` sorts its working copy by descending
importance with `std::sort`, which guarantees only a sorted permutation:
every route it may return is non-increasing in importance and drawn from
the catalog, but the relative order of equal-importance places is
unspecified rather than stable. -/
theorem C4_sorted_desc (c : List Place) (t : ℚ) (r : Route)
    (h : VisitByValueAllowed c t r) :
    r.places.Sorted valueGE ∧ r.places.Subperm c := by
  obtain ⟨temp, ⟨hperm, hsort⟩, rfl⟩ := h
  constructor
  · exact List.Pairwise.sublist (selectLoop_sublist t 0 temp) hsort
  · exact (selectLoop_sublist t 0 temp).subperm.trans hperm.subperm

/-- Witness for C4 on a concrete conforming execution. -/
theorem C4_sorted_desc_witness :
    VisitByValueAllowed [pA, pB] 32 ⟨[pB, pA]⟩ ∧
      ((Route.mk [pB, pA]).places.Sorted valueGE ∧
        (Route.mk [pB, pA]).places.Subperm [pA, pB]) :=
  ⟨⟨[pB, pA], ⟨List.Perm.swap pA pB [], by norm_num [List.sorted_cons, valueGE, pA, pB]⟩,
      by norm_num [selectLoop, pA, pB]⟩,
    C4_sorted_desc [pA, pB] 32 ⟨[pB, pA]⟩
      ⟨[pB, pA], ⟨List.Perm.swap pA pB [], by norm_num [List.sorted_cons, valueGE, pA, pB]⟩,
        by norm_num [selectLoop, pA, pB]⟩⟩

/-- Claim C5: for the same catalog (all durations nonnegative, as every
duration in this program is) and the same budget, `VisitMostPlaces`
returns at least as many places as `VisitByValue` and as
`VisitByHourValue`. -/
theorem C5_count_maximal (c : List Place) (t : ℚ) (h : ∀ p ∈ c, 0 ≤ p.time) :
    count (VisitByValue c t) ≤ count (VisitMostPlaces c t) ∧
      count (VisitByHourValue c t) ≤ count (VisitMostPlaces c t) := by
  constructor
  · exact selectLoop_count_le c t h (List.insertionSort valueGE c)
      (List.perm_insertionSort valueGE c)
  · have h1 := selectLoop_count_le c t h (sortedByRate c) (sortedByRate_perm c)
    rw [count, count, VisitByHourValue_places]
    exact h1

/-- Witness for C5 at the reference catalog and budget. -/
theorem C5_count_maximal_witness :
    (∀ p ∈ places, 0 ≤ p.time) ∧
      (count (VisitByValue places availableTime) ≤ count (VisitMostPlaces places availableTime) ∧
        count (VisitByHourValue places availableTime) ≤
          count (VisitMostPlaces places availableTime)) :=
  ⟨by norm_num [places], C5_count_maximal places availableTime (by norm_num [places])⟩

/-- Claim C6: each algorithm is deterministic across calls: with the
process state (the global catalog) threaded explicitly, a call leaves the
catalog unchanged — each algorithm sorts a local copy — and a second call
on the resulting state returns an identical route. -/
theorem C6_deterministic (catalog : List Place) :
    ((VisitMostPlacesSt catalog).2 = catalog ∧
      (VisitMostPlacesSt ((VisitMostPlacesSt catalog).2)).1 = (VisitMostPlacesSt catalog).1) ∧
    ((VisitByValueSt catalog).2 = catalog ∧
      (VisitByValueSt ((VisitByValueSt catalog).2)).1 = (VisitByValueSt catalog).1) ∧
    ((VisitByHourValueSt catalog).2 = catalog ∧
      (VisitByHourValueSt ((VisitByHourValueSt catalog).2)).1 =
        (VisitByHourValueSt catalog).1) :=
  ⟨⟨rfl, rfl⟩, ⟨rfl, rfl⟩, ⟨rfl, rfl⟩⟩

/-- Claim C7: with a budget of `0`, each algorithm returns the empty route
whenever every catalog duration is positive; and with nonnegative
durations, any place appearing in a returned route must have duration
zero. -/
theorem C7_zero_budget (c : List Place) :
    ((∀ p ∈ c, 0 < p.time) →
        (VisitMostPlaces c 0).places = [] ∧ (VisitByValue c 0).places = [] ∧
          (VisitByHourValue c 0).places = []) ∧
      ((∀ p ∈ c, 0 ≤ p.time) →
        ∀ q, (q ∈ (VisitMostPlaces c 0).places ∨ q ∈ (VisitByValue c 0).places ∨
            q ∈ (VisitByHourValue c 0).places) → q.time = 0) := by
  constructor
  · intro hpos
    refine ⟨?_, ?_, ?_⟩
    · exact selectLoop_zero_nil (List.insertionSort timeLE c)
        (fun p hp => hpos p ((List.perm_insertionSort timeLE c).subset hp)) 0 le_rfl
    · exact selectLoop_zero_nil (List.insertionSort valueGE c)
        (fun p hp => hpos p ((List.perm_insertionSort valueGE c).subset hp)) 0 le_rfl
    · rw [VisitByHourValue_places]
      exact selectLoop_zero_nil (sortedByRate c)
        (fun p hp => hpos p ((sortedByRate_perm c).subset hp)) 0 le_rfl
  · intro hnn q hq
    rcases hq with hq | hq | hq
    · exact selectLoop_zero_mem (List.insertionSort timeLE c) 0
        (fun p hp => hnn p ((List.perm_insertionSort timeLE c).subset hp)) le_rfl q hq
    · exact selectLoop_zero_mem (List.insertionSort valueGE c) 0
        (fun p hp => hnn p ((List.perm_insertionSort valueGE c).subset hp)) le_rfl q hq
    · rw [VisitByHourValue_places] at hq
      exact selectLoop_zero_mem (sortedByRate c) 0
        (fun p hp => hnn p ((sortedByRate_perm c).subset hp)) le_rfl q hq

/-- Witness for C7: a positive-duration catalog yields empty routes under
budget `0`, and the zero-duration place `pZ`, which budget `0` admits,
indeed has duration `0`. -/
theorem C7_zero_budget_witness :
    ((VisitMostPlaces [pW] 0).places = [] ∧ (VisitByValue [pW] 0).places = [] ∧
        (VisitByHourValue [pW] 0).places = []) ∧ pZ.time = 0 :=
  ⟨(C7_zero_budget [pW]).1 (by norm_num [pW]),
    (C7_zero_budget [pZ]).2 (by norm_num [pZ]) pZ
      (Or.inl (by norm_num [VisitMostPlaces, List.insertionSort, List.orderedInsert,
        selectLoop, pZ]))⟩

/-- Claim C8 counterexample: the claimed exact rendering differs from the
code's output: the code prints each entry with a leading space
(`" - ..."`, `Main.cpp:94`) and separates entries with a comma, a space
and a newline (`", \n"`, `Main.cpp:95`), not with a bare comma and
newline. -/
theorem C8_render_counterexample : render ⟨[pA]⟩ ≠ renderClaimed ⟨[pA]⟩ := by
  have ht : totalTime ⟨[pA]⟩ = 1 := by norm_num [totalTime, pA]
  have hv : totalValue ⟨[pA]⟩ = 5 := by norm_num [totalValue, pA]
  have hsummary : renderSummary ⟨[pA]⟩
      = "Total time: 1; Total value: 5; Places visited: 1\n" := by
    rw [renderSummary, ht, hv]
    rfl
  have h1 : render ⟨[pA]⟩
      = "Total time: 1; Total value: 5; Places visited: 1\n - A (1h, 5)" := by
    rw [render, hsummary]
    rfl
  have h2 : renderClaimed ⟨[pA]⟩
      = "Total time: 1; Total value: 5; Places visited: 1\n- A (1h, 5)" := by
    rw [renderClaimed, hsummary]
    rfl
  rw [h1, h2]
  decide

/-- Claim C8, amended: rendering a route produces the summary line
`Total time: <T>; Total value: <V>; Places visited: <N>` — `T` the sum of
durations, `V` the sum of importances, `N` the count, all zero for an
empty route — followed by one ` - <name> (<duration>h, <importance>)`
entry (leading space included) per contained place in insertion order,
separated by a comma, a space and a newline, the final entry
unterminated. -/
theorem C8_render_format (r : Route) : render r = renderAmended r := by
  rw [render, renderAmended, renderEntries_eq_joinSep]

/-- Claim C9: every returned route is internally sorted by its algorithm's
key — ascending duration for `VisitMostPlaces`, descending importance for
`VisitByValue`, descending importance per hour for `VisitByHourValue` —
and is a sub-multiset of the catalog. -/
theorem C9_sorted_and_from_catalog (c : List Place) (t : ℚ) :
    ((VisitMostPlaces c t).places.Sorted timeLE ∧ (VisitMostPlaces c t).places.Subperm c) ∧
      ((VisitByValue c t).places.Sorted valueGE ∧ (VisitByValue c t).places.Subperm c) ∧
      ((VisitByHourValue c t).places.Sorted rateGE ∧
        (VisitByHourValue c t).places.Subperm c) := by
  refine ⟨⟨?_, ?_⟩, ⟨?_, ?_⟩, ⟨?_, ?_⟩⟩
  · exact List.Pairwise.sublist (selectLoop_sublist t 0 (List.insertionSort timeLE c))
      (List.sorted_insertionSort timeLE c)
  · exact (selectLoop_sublist t 0 (List.insertionSort timeLE c)).subperm.trans
      (List.perm_insertionSort timeLE c).subperm
  · exact List.Pairwise.sublist (selectLoop_sublist t 0 (List.insertionSort valueGE c))
      (List.sorted_insertionSort valueGE c)
  · exact (selectLoop_sublist t 0 (List.insertionSort valueGE c)).subperm.trans
      (List.perm_insertionSort valueGE c).subperm
  · rw [VisitByHourValue_places]
    exact List.Pairwise.sublist (selectLoop_sublist t 0 (sortedByRate c)) (sortedByRate_sorted c)
  · rw [VisitByHourValue_places]
    exact (selectLoop_sublist t 0 (sortedByRate c)).subperm.trans (sortedByRate_perm c).subperm

/-- Claim C10: the rate key of `VisitByHourValue` is the importance divided
by the duration; when every catalog duration is strictly positive the
divisor is never zero and the division is a true division — multiplying
back by the duration recovers the importance. -/
theorem C10_rate_welldefined (c : List Place) (h : ∀ p ∈ c, 0 < p.time) :
    ∀ p ∈ c, p.time ≠ 0 ∧ hourVal p * p.time = p.value := by
  intro p hp
  have hpos := h p hp
  refine ⟨ne_of_gt hpos, ?_⟩
  rw [hourVal]
  exact div_mul_cancel₀ _ (ne_of_gt hpos)

/-- Witness for C10 on a concrete one-place catalog. -/
theorem C10_rate_welldefined_witness :
    (∀ p ∈ [pW], 0 < p.time) ∧ (pW.time ≠ 0 ∧ hourVal pW * pW.time = pW.value) :=
  ⟨by norm_num [pW],
    C10_rate_welldefined [pW] (by norm_num [pW]) pW (List.mem_singleton.mpr rfl)⟩

end test
